import Mathlib

/-!
Verification of the document chunking, artifact provisioning and two-stage
semantic search core of this repository (src/core/ingestion.py and
src/core/search_engine.py), as a shallow embedding in Lean 4.

Strings are modelled by Lean String (a packed List Char); regular-expression
operations of the source are implemented character by character with the same
semantics on the inputs the code receives.
-/

namespace ContractProcess

/-- Python whitespace predicate: the characters matched by the regex class
of a whitespace and recognized by str.strip() (ASCII fragment, which covers
every input the repository feeds to these functions). -/
def pyIsSpace (c : Char) : Bool :=
  c = ' ' || c = '\t' || c = '\n' || c = '\r' || c = '\x0b' || c = '\x0c'

/-- One pass of the substitution in clean_text: each maximal run of
whitespace becomes a single space.  The Boolean flag records whether the
previously consumed character was part of a whitespace run. -/
def collapseWSAux : Bool → List Char → List Char
  | _, [] => []
  | prevSpace, c :: cs =>
    if pyIsSpace c then
      (if prevSpace then [] else [' ']) ++ collapseWSAux true cs
    else c :: collapseWSAux false cs

/-- Python str.strip(): drop leading and trailing whitespace. -/
def pyStripChars (l : List Char) : List Char :=
  ((l.dropWhile pyIsSpace).reverse.dropWhile pyIsSpace).reverse

/-- Python str.strip() on String. -/
def pyStrip (s : String) : String :=
  String.mk (pyStripChars s.data)

/-- DocProcessor._clean_text: collapse whitespace runs to a single space,
then strip both ends (re.sub of a whitespace-run by one space, then strip). -/
def clean_text (s : String) : String :=
  String.mk (pyStripChars (collapseWSAux false s.data))

/-- Sentence-ending punctuation of the splitting regex in _sliding_window. -/
def isSentEnd (c : Char) : Bool :=
  c = '.' || c = '!' || c = '?'

/-- Does the segment accumulated so far (in reverse) end in [.!?] ? -/
def sentEndHead : List Char → Bool
  | [] => false
  | c :: _ => isSentEnd c

/-- re.split of the pattern "whitespace run preceded by [.!?]":
walking the characters, a whitespace character whose predecessor is
sentence-ending punctuation starts a delimiter run; the run is consumed
and the accumulated segment is emitted.  The flag is true while the
delimiter run is being consumed. -/
def splitAux : Bool → List Char → List Char → List (List Char)
  | _, acc, [] => [acc.reverse]
  | skipping, acc, c :: cs =>
    if pyIsSpace c then
      if skipping then splitAux true acc cs
      else if sentEndHead acc then acc.reverse :: splitAux true [] cs
      else splitAux false (c :: acc) cs
    else splitAux false (c :: acc) cs

/-- re.split of the sentence-boundary pattern used by _sliding_window. -/
def splitSentences (s : String) : List String :=
  (splitAux false [] s.data).map String.mk

/-- Python sep.join(list): the pieces interleaved with the separator. -/
def joinSep (sep : String) : List String → String
  | [] => ""
  | [s] => s
  | s :: rest => s ++ sep ++ joinSep sep rest

/-- A retrievable unit of text (ingestion.Chunk).  The only metadata the
code ever attaches is a dict of numeric entries, modelled as an association
list. -/
structure Chunk where
  text : String
  original_index : Nat
  source_type : String
  metadata : Option (List (String × Nat))
deriving Repr, DecidableEq

/-- The chunking component (ingestion.DocProcessor): its constructor just
stores the three parameters, with no validation. -/
structure DocProcessor where
  max_chars : Nat
  window_size : Nat
  overlap : Nat
deriving Repr, DecidableEq

/-- DocProcessor.__init__ : stores the parameters as given.  It is a total
function: no configuration is ever rejected. -/
def DocProcessor.init (max_chars window_size overlap : Nat) : DocProcessor :=
  DocProcessor.mk max_chars window_size overlap

/-- The for-loop of _sliding_window: i ranges over 0, stride, 2*stride, ...
while i < len(sentences); each iteration emits the window starting at i
(joined with single spaces, skipped when empty) and the loop breaks once
i + window_size reaches the sentence count.  The stride is passed as its
predecessor so that it is positive by construction, exactly as
max(1, window_size - overlap) is. -/
def windowLoop (sentences : List String) (window_size spred index : Nat)
    (source_type : String) (i : Nat) : List Chunk :=
  if _h : i < sentences.length then
    let window := (sentences.drop i).take window_size
    let chunk_text := joinSep " " window
    let here := if chunk_text = "" then [] else [Chunk.mk chunk_text index source_type none]
    if sentences.length ≤ i + window_size then here
    else here ++ windowLoop sentences window_size spred index source_type (i + (spred + 1))
  else []
termination_by sentences.length - i

/-- The sentences _sliding_window works on: the regex split of the text,
with fragments that are empty after stripping removed. -/
def sentencesOf (text : String) : List String :=
  (splitSentences text).filter (fun s => pyStrip s ≠ "")

/-- DocProcessor._sliding_window: split into sentences, drop empty
fragments; no sentences gives no chunks; at most window_size sentences
gives the whole text as one chunk; otherwise slide the window with stride
max(1, window_size - overlap). -/
def DocProcessor.sliding_window (p : DocProcessor) (text : String) (index : Nat)
    (source_type : String) : List Chunk :=
  let sentences := sentencesOf text
  if sentences.isEmpty then []
  else if sentences.length ≤ p.window_size then
    [Chunk.mk text index source_type none]
  else
    windowLoop sentences p.window_size (max 1 (p.window_size - p.overlap) - 1)
      index source_type 0

/-- The parsed document handed to DocProcessor.process: paragraph texts in
order, and tables as lists of rows, each row a list of cell texts. -/
structure PyDocument where
  paragraphs : List String
  tables : List (List (List String))
deriving Repr

/-- str.replace of a single character by the empty string: every occurrence
of the character is removed. -/
def pyRemoveChar (ch : Char) (s : String) : String :=
  String.mk (s.data.filter (fun c => c ≠ ch))

/-- The paragraph loop of DocProcessor.process: clean each paragraph, skip
empty ones, window-split the long ones, and otherwise emit one paragraph
chunk carrying the paragraph index. -/
def DocProcessor.paragraphChunks (p : DocProcessor) (paragraphs : List String) : List Chunk :=
  (paragraphs.enum).flatMap fun pr =>
    let text := clean_text pr.2
    if text = "" then []
    else if p.max_chars < text.length then p.sliding_window text pr.1 "paragraph"
    else [Chunk.mk text pr.1 "paragraph" none]

/-- The body of the table loop of DocProcessor.process for one row: join
the cleaned cells with " | ", skip the row if it is empty once separators
and whitespace are gone, and otherwise emit one table chunk carrying the
table index and the row index. -/
def rowChunks (i j : Nat) (row : List String) : List Chunk :=
  let cell_texts := row.map clean_text
  let row_text := joinSep " | " cell_texts
  if pyStrip (pyRemoveChar '|' (clean_text row_text)) = "" then []
  else [Chunk.mk row_text i "table" (some [("row_index", j)])]

/-- The table loop of DocProcessor.process: every row of every table, in
table order then row order. -/
def DocProcessor.tableChunks (_p : DocProcessor) (tables : List (List (List String))) :
    List Chunk :=
  tables.enum.flatMap fun tp =>
    tp.2.enum.flatMap fun rp => rowChunks tp.1 rp.1 rp.2

/-- DocProcessor.process applied to an already parsed document: the
paragraph loop runs first, the table loop second, both appending to one
list. -/
def DocProcessor.processDoc (p : DocProcessor) (doc : PyDocument) : List Chunk :=
  p.paragraphChunks doc.paragraphs ++ p.tableChunks doc.tables

/-! ## The semantic search engine (src/core/search_engine.py) -/

/-- An embedding vector.  The engine only ever stores and passes these
around, so their numeric content is modelled over the rationals. -/
abbrev Vec := List ℚ

/-- One hit of util.semantic_search: a corpus index together with its
coarse cosine-similarity score. -/
structure Hit where
  corpus_id : Nat
  score : ℚ
deriving Repr, DecidableEq

/-- One element of the list SemanticSearchEngine.search returns. -/
structure SearchResult where
  text : String
  original_index : Nat
  source_type : String
  metadata : Option (List (String × Nat))
  score : ℚ
  initial_score : ℚ
deriving Repr, DecidableEq

/-- The per-document state of SemanticSearchEngine: the chunk list and the
optional matrix of document vectors (None before any load and after
loading an empty document). -/
structure EngineState where
  chunks : List Chunk
  doc_vectors : Option (List Vec)
deriving Repr

/-- vector count == chunk count, or both are empty/absent: the invariant
claimed of the engine state. -/
def EngineState.consistent (st : EngineState) : Prop :=
  (∃ vs, st.doc_vectors = some vs ∧ vs.length = st.chunks.length) ∨
    (st.doc_vectors = none ∧ st.chunks = [])

/-- SemanticSearchEngine.load_document, with the batch encoder passed in as
an oracle that may fail (the source call into the embedding model can raise).
Mirroring the statement order of the source: self.chunks is assigned first;
an empty text list clears the vectors and returns; otherwise the encoder
runs and only on success is doc_vectors assigned.  The second component is
the propagated exception, if any. -/
def load_document (encode : List String → Except String (List Vec))
    (st : EngineState) (chunks : List Chunk) : EngineState × Option String :=
  let st1 : EngineState := EngineState.mk chunks st.doc_vectors
  let texts := chunks.map Chunk.text
  if texts = [] then (EngineState.mk st1.chunks none, none)
  else
    match encode texts with
    | Except.error e => (st1, some e)
    | Except.ok embeddings => (EngineState.mk st1.chunks (some embeddings), none)

/-- self.chunks[i] with a default; the source indexing raises on an
out-of-range id, which the search model tracks separately. -/
def chunkD (chunks : List Chunk) (i : Nat) : Chunk :=
  (chunks.get? i).getD (Chunk.mk "" 0 "" none)

/-- Comparator of the final sort: Python list.sort with key cross_score and
reverse=True is a stable sort under "greater or equal cross score". -/
def hitGE (a b : Hit × ℚ) : Bool :=
  decide (b.2 ≤ a.2)

/-- SemanticSearchEngine.search, with the embedding model, the coarse
retrieval routine (util.semantic_search) and the cross-encoder modelled as
oracles.  Returns none when the source would raise (an out-of-range corpus
id while indexing self.chunks); an unloaded engine returns an empty list,
not an error.  Steps: guard, coarse retrieval of max(top_k, 10) capped to
the corpus size, rerank of every candidate pair, stable sort by rerank
score descending, truncation to top_k, and projection to result records
carrying the rerank score as score and the cosine similarity as
initial_score. -/
def search (embed : String → Vec) (semanticSearch : Vec → List Vec → Nat → List Hit)
    (rerank : String → String → ℚ) (st : EngineState) (query : String) (top_k : Nat) :
    Option (List SearchResult) :=
  if st.chunks = [] then some []
  else
    match st.doc_vectors with
    | none => some []
    | some docVectors =>
      let query_vector := embed query
      let retrieve_k := max top_k 10
      let hits := semanticSearch query_vector docVectors (min retrieve_k st.chunks.length)
      match hits.mapM (fun h => (st.chunks.get? h.corpus_id).map
          (fun c => (query, c.text))) with
      | none => none
      | some cross_inp =>
        if cross_inp = [] then some []
        else
          let cross_scores := cross_inp.map (fun pr => rerank pr.1 pr.2)
          let scored := hits.zip cross_scores
          let sorted := scored.mergeSort hitGE
          let final_hits := sorted.take top_k
          final_hits.mapM fun hc =>
            (st.chunks.get? hc.1.corpus_id).map fun c =>
              SearchResult.mk c.text c.original_index c.source_type c.metadata
                hc.2 hc.1.score

/-! ## Artifact provisioning (src/core/search_engine.py, download logic) -/

/-- The local directory as seen through pathlib: for a relative path,
none means the file does not exist; some none means it exists but stat()
raises OSError; some (some n) means it exists with size n. -/
abbrev LocalFS := String → Option (Option Nat)

/-- path.exists() in the model. -/
def localExists (fs : LocalFS) (p : String) : Bool :=
  (fs p).isSome

/-- The classifying loop of _collect_missing_files, returning the three
accumulated lists (missing, size_mismatch, unknown_size) in file order:
an absent file is missing; a present file with unknown remote size is
accepted as is; a stat failure counts as missing; otherwise a size
difference is a mismatch. -/
def collectLoop (fs : LocalFS) : List (String × Option Nat) →
    List String × List String × List String
  | [] => ([], [], [])
  | (relative_path, remote_size) :: rest =>
    let acc := collectLoop fs rest
    match fs relative_path with
    | none => (relative_path :: acc.1, acc.2.1, acc.2.2)
    | some st =>
      match remote_size with
      | none => (acc.1, acc.2.1, relative_path :: acc.2.2)
      | some rsz =>
        match st with
        | none => (relative_path :: acc.1, acc.2.1, acc.2.2)
        | some lsz =>
          if lsz ≠ rsz then (acc.1, relative_path :: acc.2.1, acc.2.2)
          else (acc.1, acc.2.1, acc.2.2)

/-- SemanticSearchEngine._collect_missing_files: the files to download are
the missing files followed by the size mismatches; the unknown-size files
are collected by the source but dropped from the return value. -/
def collect_missing_files (fs : LocalFS) (files : List (String × Option Nat)) :
    List String × List String × List String :=
  let acc := collectLoop fs files
  (acc.1 ++ acc.2.1, acc.1, acc.2.1)

/-- The recognized weight file variants of _is_model_complete_offline. -/
def weightCandidates : List String :=
  ["pytorch_model.bin", "model.safetensors", "model.bin", "model.onnx", "onnx/model.onnx"]

/-- The recognized tokenizer file variants of _is_model_complete_offline. -/
def tokenizerCandidates : List String :=
  ["tokenizer.json", "tokenizer_config.json", "vocab.txt",
   "sentencepiece.bpe.model", "spiece.model"]

/-- SemanticSearchEngine._is_model_complete_offline: config.json plus at
least one weight variant plus at least one tokenizer variant. -/
def is_model_complete_offline (fs : LocalFS) : Bool :=
  localExists fs "config.json" &&
    weightCandidates.any (localExists fs) &&
    tokenizerCandidates.any (localExists fs)

/-- What _ensure_model_downloaded decides to transfer. -/
inductive DownloadPlan where
  | noTransfer
  | perFile (names : List String)
  | snapshot
deriving Repr, DecidableEq

/-- The transfer decision of _ensure_model_downloaded: with a remote
manifest, download exactly the files _collect_missing_files selects and
nothing when that list is empty; when the remote check fails, fall back to
the offline heuristic, either skipping the download or recovering the full
snapshot. -/
def ensurePlan (fs : LocalFS) (remote : Option (List (String × Option Nat))) :
    DownloadPlan :=
  match remote with
  | some remote_files =>
    let files_to_download := (collect_missing_files fs remote_files).1
    if files_to_download = [] then DownloadPlan.noTransfer
    else DownloadPlan.perFile files_to_download
  | none =>
    if is_model_complete_offline fs then DownloadPlan.noTransfer
    else DownloadPlan.snapshot

/-- The state of the local directory after hf_hub_download has fetched the
planned files: each downloaded path now exists with the size the transfer
produced; everything else is untouched. -/
def applyDownload (fs : LocalFS) (downloaded : List String) (dlSize : String → Nat) :
    LocalFS :=
  fun p => if p ∈ downloaded then some (some (dlSize p)) else fs p

/-! ## Download worker resolution (_resolve_download_workers) -/

/-- ASCII decimal digit. -/
def isDigitChar (c : Char) : Bool :=
  '0' ≤ c && c ≤ '9'

/-- Digit tail of a Python integer literal: digits with single underscores
allowed between digits only. -/
def pdigits : Nat → List Char → Option Nat
  | acc, [] => some acc
  | acc, c :: cs =>
    if c = '_' then
      match cs with
      | [] => none
      | d :: ds =>
        if isDigitChar d then pdigits (acc * 10 + (d.toNat - 48)) ds else none
    else if isDigitChar c then pdigits (acc * 10 + (c.toNat - 48)) cs
    else none
termination_by _ l => l.length

/-- Unsigned part of int(): at least one leading digit. -/
def startDigits : List Char → Option Nat
  | [] => none
  | c :: cs => if isDigitChar c then pdigits (c.toNat - 48) cs else none

/-- Python int(str): surrounding whitespace stripped, optional sign,
decimal digits with single underscores between digits; none models
ValueError. -/
def pyParseInt (s : String) : Option Int :=
  match pyStripChars s.data with
  | '+' :: rest => (startDigits rest).map (fun n => (n : Int))
  | '-' :: rest => (startDigits rest).map (fun n => -(n : Int))
  | l => (startDigits l).map (fun n => (n : Int))

/-- SemanticSearchEngine._resolve_download_workers: the environment value
(default "4") parsed as an int with fallback 4, clamped below by 1; a
non-positive file count gives 1 worker, and otherwise the minimum of the
requested cap, the file count and the hard cap 8. -/
def resolve_download_workers (env : Option String) (total_files : Int) : Int :=
  let env_value := env.getD "4"
  let requested0 := (pyParseInt env_value).getD 4
  let requested := max 1 requested0
  if total_files ≤ 0 then 1
  else min (min requested total_files) 8

/-- The configured worker cap, as the spec words it: the value of the
MODEL_DOWNLOAD_WORKERS environment variable (falling back to 4 when unset
or unparsable, floored at 1). -/
def configuredWorkerCap (env : Option String) : Int :=
  max 1 ((pyParseInt (env.getD "4")).getD 4)

/-! ## Properties of the whitespace normalizer (clean_text) -/

/-- Every whitespace character of the list is a plain space. -/
def spacesOnly (l : List Char) : Prop :=
  ∀ c ∈ l, pyIsSpace c = true → c = ' '

/-- No two adjacent whitespace characters. -/
def noWsPair (a b : Char) : Prop :=
  pyIsSpace a = false ∨ pyIsSpace b = false

theorem collapse_mem {ch : Char} : ∀ {b : Bool} {l : List Char},
    ch ∈ collapseWSAux b l → ch = ' ' ∨ (ch ∈ l ∧ pyIsSpace ch = false) := by
  intro b l
  induction l generalizing b with
  | nil => simp [collapseWSAux]
  | cons c cs ih =>
    intro hmem
    simp only [collapseWSAux] at hmem
    by_cases hc : pyIsSpace c = true
    · rw [if_pos hc] at hmem
      rcases List.mem_append.mp hmem with h1 | h2
      · left
        cases b <;> simp_all
      · rcases ih h2 with h | ⟨hm, hws⟩
        · exact Or.inl h
        · exact Or.inr ⟨List.mem_cons_of_mem _ hm, hws⟩
    · rw [if_neg hc] at hmem
      rcases List.mem_cons.mp hmem with rfl | h2
      · exact Or.inr ⟨List.mem_cons_self _ _, by simpa using hc⟩
      · rcases ih h2 with h | ⟨hm, hws⟩
        · exact Or.inl h
        · exact Or.inr ⟨List.mem_cons_of_mem _ hm, hws⟩

theorem collapse_true_head : ∀ {l : List Char} {c : Char},
    (collapseWSAux true l).head? = some c → pyIsSpace c = false := by
  intro l
  induction l with
  | nil => simp [collapseWSAux]
  | cons d ds ih =>
    intro c h
    simp only [collapseWSAux] at h
    by_cases hd : pyIsSpace d = true
    · rw [if_pos hd] at h
      simp only [if_pos, List.nil_append] at h
      exact ih h
    · rw [if_neg hd] at h
      simp only [List.head?_cons, Option.some_inj] at h
      subst h
      simpa using hd

theorem collapse_chain : ∀ {l : List Char} (b : Bool),
    List.Chain' noWsPair (collapseWSAux b l) := by
  intro l
  induction l with
  | nil => intro b; simp [collapseWSAux]
  | cons c cs ih =>
    intro b
    simp only [collapseWSAux]
    by_cases hc : pyIsSpace c = true
    · rw [if_pos hc]
      cases b with
      | true => simpa using ih true
      | false =>
        simp only [Bool.false_eq_true, if_false, List.singleton_append]
        rw [List.chain'_cons']
        refine ⟨?_, ih true⟩
        intro y hy
        exact Or.inr (collapse_true_head hy)
    · rw [if_neg hc]
      rw [List.chain'_cons']
      refine ⟨?_, ih false⟩
      intro y _
      exact Or.inl (by simpa using hc)

theorem collapse_eq_self : ∀ {l : List Char}, spacesOnly l → List.Chain' noWsPair l →
    collapseWSAux false l = l ∧
      ((∀ c, l.head? = some c → pyIsSpace c = false) → collapseWSAux true l = l) := by
  intro l
  induction l with
  | nil => intro _ _; simp [collapseWSAux]
  | cons c cs ih =>
    intro hso hch
    have hso' : spacesOnly cs := fun d hd => hso d (List.mem_cons_of_mem _ hd)
    have hch' : List.Chain' noWsPair cs := (List.chain'_cons'.mp hch).2
    have ihcs := ih hso' hch'
    constructor
    · by_cases hc : pyIsSpace c = true
      · have hcsp : c = ' ' := hso c (List.mem_cons_self _ _) hc
        have hhd : ∀ d, cs.head? = some d → pyIsSpace d = false := by
          intro d hd
          rcases (List.chain'_cons'.mp hch).1 d hd with h | h
          · exact absurd hc (by simp [h])
          · exact h
        simp only [collapseWSAux]
        rw [if_pos hc]
        simp only [Bool.false_eq_true, if_false, List.singleton_append]
        rw [ihcs.2 hhd, hcsp]
      · simp only [collapseWSAux]
        rw [if_neg hc, ihcs.1]
    · intro hhead
      have hc : pyIsSpace c = false := hhead c rfl
      simp only [collapseWSAux]
      rw [if_neg (by simp [hc]), ihcs.1]

theorem dropWhile_eq_self_of_head {p : Char → Bool} {l : List Char}
    (h : ∀ c, l.head? = some c → p c = false) : l.dropWhile p = l := by
  cases l with
  | nil => rfl
  | cons c cs =>
    have := h c rfl
    simp [List.dropWhile_cons, this]

theorem dropWhile_head?_not {p : Char → Bool} : ∀ {l : List Char} {c : Char},
    (l.dropWhile p).head? = some c → p c = false := by
  intro l
  induction l with
  | nil => simp
  | cons d ds ih =>
    intro c h
    by_cases hd : p d = true
    · rw [List.dropWhile_cons_of_pos hd] at h
      exact ih h
    · rw [List.dropWhile_cons_of_neg (by simpa using hd)] at h
      simp only [List.head?_cons, Option.some_inj] at h
      subst h
      simpa using hd

theorem getLast?_dropWhile {p : Char → Bool} : ∀ {l : List Char},
    l.dropWhile p = [] ∨ (l.dropWhile p).getLast? = l.getLast? := by
  intro l
  induction l with
  | nil => exact Or.inl rfl
  | cons c cs ih =>
    by_cases hc : p c = true
    · rw [List.dropWhile_cons_of_pos hc]
      cases cs with
      | nil => exact Or.inl rfl
      | cons d ds =>
        rcases ih with h | h
        · exact Or.inl h
        · right
          rw [h]
          simp
    · rw [List.dropWhile_cons_of_neg (by simpa using hc)]
      exact Or.inr rfl

theorem chain'_dropWhile {R : Char → Char → Prop} {p : Char → Bool} :
    ∀ {l : List Char}, List.Chain' R l → List.Chain' R (l.dropWhile p) := by
  intro l
  induction l with
  | nil => simp
  | cons c cs ih =>
    intro h
    by_cases hc : p c = true
    · rw [List.dropWhile_cons_of_pos hc]
      exact ih (List.Chain'.tail h)
    · rwa [List.dropWhile_cons_of_neg (by simpa using hc)]

theorem noWsPair_symm {a b : Char} (h : noWsPair a b) : noWsPair b a := h.symm

theorem chain'_reverse_noWsPair {l : List Char} (h : List.Chain' noWsPair l) :
    List.Chain' noWsPair l.reverse := by
  rw [List.chain'_reverse]
  exact List.Chain'.imp (fun a b hab => noWsPair_symm hab) h

theorem pyStrip_sub {ch : Char} {l : List Char} (h : ch ∈ pyStripChars l) : ch ∈ l := by
  unfold pyStripChars at h
  rw [List.mem_reverse] at h
  have h1 := (List.dropWhile_sublist pyIsSpace).subset h
  rw [List.mem_reverse] at h1
  exact (List.dropWhile_sublist pyIsSpace).subset h1

theorem chain'_pyStrip {l : List Char} (h : List.Chain' noWsPair l) :
    List.Chain' noWsPair (pyStripChars l) := by
  unfold pyStripChars
  exact chain'_reverse_noWsPair (chain'_dropWhile (chain'_reverse_noWsPair (chain'_dropWhile h)))

theorem pyStrip_head {l : List Char} {c : Char}
    (h : (pyStripChars l).head? = some c) : pyIsSpace c = false := by
  unfold pyStripChars at h
  rw [List.head?_reverse] at h
  rcases @getLast?_dropWhile pyIsSpace ((l.dropWhile pyIsSpace).reverse) with he | hg
  · rw [he] at h; simp at h
  · rw [hg, List.getLast?_reverse] at h
    exact dropWhile_head?_not h

theorem pyStrip_getLast {l : List Char} {c : Char}
    (h : (pyStripChars l).getLast? = some c) : pyIsSpace c = false := by
  unfold pyStripChars at h
  rw [List.getLast?_reverse] at h
  exact dropWhile_head?_not h

theorem strip_fix {l : List Char}
    (h1 : ∀ c, l.head? = some c → pyIsSpace c = false)
    (h2 : ∀ c, l.getLast? = some c → pyIsSpace c = false) :
    pyStripChars l = l := by
  unfold pyStripChars
  rw [dropWhile_eq_self_of_head h1]
  rw [dropWhile_eq_self_of_head (by intro c hc; rw [List.head?_reverse] at hc; exact h2 c hc)]
  exact List.reverse_reverse l

/-- C9: the text cleaning function is idempotent: cleaning an already
cleaned string changes nothing, for every input string. -/
theorem clean_text_idempotent (x : String) : clean_text (clean_text x) = clean_text x := by
  unfold clean_text
  apply congrArg String.mk
  set y := pyStripChars (collapseWSAux false x.data) with hy
  have hso : spacesOnly y := by
    intro c hc hws
    rcases collapse_mem (pyStrip_sub hc) with h | ⟨_, hns⟩
    · exact h
    · rw [hws] at hns; cases hns
  have hch : List.Chain' noWsPair y := chain'_pyStrip (collapse_chain false)
  have hcol : collapseWSAux false y = y := (collapse_eq_self hso hch).1
  have hstr : pyStripChars y = y := by
    apply strip_fix
    · intro c hc; exact pyStrip_head (hy ▸ hc)
    · intro c hc; exact pyStrip_getLast (hy ▸ hc)
  rw [hcol, hstr]

/-! ## Search on an unloaded engine (C2) -/

/-- C2: searching while no document is loaded (no chunks stored, or no
vector matrix stored) returns an empty list for every query and top_k,
and does not raise an error. -/
theorem search_empty_engine (embed : String → Vec)
    (semanticSearch : Vec → List Vec → Nat → List Hit) (rerank : String → String → ℚ)
    (st : EngineState) (query : String) (top_k : Nat)
    (h : st.chunks = [] ∨ st.doc_vectors = none) :
    search embed semanticSearch rerank st query top_k = some [] := by
  unfold search
  rcases h with h | h
  · rw [if_pos h]
  · by_cases hc : st.chunks = []
    · rw [if_pos hc]
    · rw [if_neg hc, h]

theorem search_empty_engine_witness :
    search (fun _ => []) (fun _ _ _ => []) (fun _ _ => 0)
      (EngineState.mk [] none) "any query" 10 = some [] :=
  search_empty_engine _ _ _ _ _ _ (Or.inl rfl)

/-! ## Construction of the chunker with inconsistent parameters (C4) -/

/-- C4: the DocProcessor constructor performs no validation: constructing
it with overlap = 3 greater than window_size = 2 succeeds and silently
stores the inconsistent parameters, instead of rejecting them with an
InvalidConfiguration condition. -/
theorem docprocessor_init_no_validation :
    DocProcessor.init 400 2 3 = DocProcessor.mk 400 2 3 ∧
      (DocProcessor.init 400 2 3).window_size ≤ (DocProcessor.init 400 2 3).overlap := by
  exact ⟨rfl, by decide⟩

/-! ## Download worker count (C8) -/

/-- C8: for every positive file count, the worker count is the minimum of
the configured cap (from the MODEL_DOWNLOAD_WORKERS environment value),
the file count, and the hard cap 8. -/
theorem resolve_workers_min (env : Option String) (total_files : Int)
    (h : 0 < total_files) :
    resolve_download_workers env total_files =
      min (min (configuredWorkerCap env) total_files) 8 := by
  unfold resolve_download_workers configuredWorkerCap
  rw [if_neg (by omega)]

theorem resolve_workers_min_witness :
    (0 : Int) < 3 ∧
      resolve_download_workers (some "6") 3 =
        min (min (configuredWorkerCap (some "6")) 3) 8 :=
  ⟨by decide, resolve_workers_min (some "6") 3 (by decide)⟩

/-! ## load_document and the chunk/vector invariant (C3) -/

/-- C3 counterexample: load_document assigns self.chunks before encoding,
so a load that fails during encoding leaves the new chunk list (length 2)
next to the previous vector matrix (one row): the invariant
"vector count == chunk count, or both empty/absent" held before the call
and is violated after it. -/
theorem load_document_partial_failure :
    EngineState.consistent
      (EngineState.mk [Chunk.mk "A" 0 "paragraph" none] (some [[1]])) ∧
    load_document (fun _ => Except.error "boom")
        (EngineState.mk [Chunk.mk "A" 0 "paragraph" none] (some [[1]]))
        [Chunk.mk "B" 1 "paragraph" none, Chunk.mk "C" 2 "paragraph" none] =
      (EngineState.mk
        [Chunk.mk "B" 1 "paragraph" none, Chunk.mk "C" 2 "paragraph" none]
        (some [[1]]), some "boom") ∧
    ¬ EngineState.consistent
      (EngineState.mk
        [Chunk.mk "B" 1 "paragraph" none, Chunk.mk "C" 2 "paragraph" none]
        (some [[1]])) := by
  refine ⟨Or.inl ⟨[[1]], rfl, rfl⟩, rfl, ?_⟩
  intro h
  rcases h with ⟨vs, hvs, hlen⟩ | ⟨hnone, _⟩
  · have : vs = [[1]] := by simpa using hvs.symm
    subst this
    simp at hlen
  · simp at hnone

/-- C3 (amended): a load_document call that completes without an encoding
error re-establishes the invariant (vector count equals chunk count, or
vectors absent with an empty chunk list), provided the encoder returns one
vector per input text; a call whose encoding fails has already installed
the new chunk list while the previous vectors remain in place. -/
theorem load_document_consistent (encode : List String → Except String (List Vec))
    (st : EngineState) (chunks : List Chunk)
    (hlen : ∀ texts embs, encode texts = Except.ok embs → embs.length = texts.length) :
    ((load_document encode st chunks).2 = none →
        EngineState.consistent (load_document encode st chunks).1) ∧
      (∀ e, (load_document encode st chunks).2 = some e →
        (load_document encode st chunks).1.chunks = chunks ∧
        (load_document encode st chunks).1.doc_vectors = st.doc_vectors) := by
  unfold load_document
  by_cases hempty : chunks.map Chunk.text = []
  · rw [if_pos hempty]
    constructor
    · intro _
      exact Or.inr ⟨rfl, by simpa using hempty⟩
    · intro e he
      simp at he
  · rw [if_neg hempty]
    cases henc : encode (chunks.map Chunk.text) with
    | error e =>
      constructor
      · intro hnone
        simp at hnone
      · intro e' _
        exact ⟨rfl, rfl⟩
    | ok embs =>
      constructor
      · intro _
        exact Or.inl ⟨embs, rfl, by rw [hlen _ _ henc, List.length_map]⟩
      · intro e' he'
        simp at he'

theorem load_document_consistent_witness :
    ((load_document (fun ts => Except.ok (ts.map fun _ => ([] : Vec)))
        (EngineState.mk [] none) [Chunk.mk "A" 0 "paragraph" none]).2 = none →
      EngineState.consistent
        (load_document (fun ts => Except.ok (ts.map fun _ => ([] : Vec)))
          (EngineState.mk [] none) [Chunk.mk "A" 0 "paragraph" none]).1) ∧
    (∀ e, (load_document (fun ts => Except.ok (ts.map fun _ => ([] : Vec)))
        (EngineState.mk [] none) [Chunk.mk "A" 0 "paragraph" none]).2 = some e →
      (load_document (fun ts => Except.ok (ts.map fun _ => ([] : Vec)))
        (EngineState.mk [] none) [Chunk.mk "A" 0 "paragraph" none]).1.chunks =
          [Chunk.mk "A" 0 "paragraph" none] ∧
      (load_document (fun ts => Except.ok (ts.map fun _ => ([] : Vec)))
        (EngineState.mk [] none) [Chunk.mk "A" 0 "paragraph" none]).1.doc_vectors =
          (EngineState.mk [] none).doc_vectors) :=
  load_document_consistent _ _ _
    (by
      intro texts embs h
      injection h with h
      rw [← h, List.length_map])

/-! ## Search ordering by rerank score (C1) -/

theorem mapM_option_eq_map {α β : Type} {g : α → Option β} {f : α → β} :
    ∀ {l : List α}, (∀ a ∈ l, g a = some (f a)) → l.mapM g = some (l.map f) := by
  intro l
  induction l with
  | nil => intro _; rfl
  | cons a as ih =>
    intro h
    rw [List.mapM_cons, h a (List.mem_cons_self _ _),
      ih fun x hx => h x (List.mem_cons_of_mem _ hx)]
    rfl

theorem hitGE_trans : ∀ (a b c : Hit × ℚ), hitGE a b → hitGE b c → hitGE a c := by
  intro a b c hab hbc
  simp only [hitGE, decide_eq_true_eq] at *
  exact le_trans hbc hab

theorem hitGE_total : ∀ (a b : Hit × ℚ), hitGE a b || hitGE b a := by
  intro a b
  rcases le_total a.2 b.2 with h | h <;> simp [hitGE, h]

theorem get?_chunkD {chunks : List Chunk} {i : Nat} (h : i < chunks.length) :
    chunks.get? i = some (chunkD chunks i) := by
  unfold chunkD
  cases hg : chunks.get? i with
  | none =>
    have := List.get?_eq_none.mp hg
    omega
  | some c => rfl

/-- C1: on a loaded engine the results of search are ordered by the rerank
score descending and truncated to top_k; the coarse cosine similarity is
carried along as initial_score but never drives the order: whenever the
top coarse candidate h0 receives a strictly lower rerank score than every
other coarse candidate, the top-1 result's rerank score is strictly above
h0's, so the top-1 result is not the coarse top choice. -/
theorem search_orders_by_rerank
    (embed : String → Vec) (semanticSearch : Vec → List Vec → Nat → List Hit)
    (rerank : String → String → ℚ) (st : EngineState) (query : String) (top_k : Nat)
    (docVectors : List Vec) (h0 : Hit) (hrest : List Hit) (c0 : Chunk)
    (hdv : st.doc_vectors = some docVectors)
    (hne : st.chunks ≠ [])
    (hhits : semanticSearch (embed query) docVectors
        (min (max top_k 10) st.chunks.length) = h0 :: hrest)
    (hvalid : ∀ h ∈ h0 :: hrest, h.corpus_id < st.chunks.length)
    (htop : 1 ≤ top_k)
    (hc0 : st.chunks.get? h0.corpus_id = some c0)
    (hlow : ∀ h ∈ hrest,
        rerank query c0.text < rerank query (chunkD st.chunks h.corpus_id).text)
    (hrne : hrest ≠ []) :
    ∃ res r0,
      search embed semanticSearch rerank st query top_k = some res ∧
      res.length = min top_k (h0 :: hrest).length ∧
      List.Pairwise (fun a b : SearchResult => b.score ≤ a.score) res ∧
      res.head? = some r0 ∧
      rerank query c0.text < r0.score := by
  set gs : Hit → ℚ := fun h => rerank query (chunkD st.chunks h.corpus_id).text with hgs
  set scored : List (Hit × ℚ) := (h0 :: hrest).map (fun h => (h, gs h)) with hscored
  set sorted : List (Hit × ℚ) := scored.mergeSort hitGE with hsorted
  set F : Hit × ℚ → SearchResult := fun hc =>
    SearchResult.mk (chunkD st.chunks hc.1.corpus_id).text
      (chunkD st.chunks hc.1.corpus_id).original_index
      (chunkD st.chunks hc.1.corpus_id).source_type
      (chunkD st.chunks hc.1.corpus_id).metadata hc.2 hc.1.score with hF
  have hperm : sorted.Perm scored := List.mergeSort_perm scored hitGE
  have hpair : sorted.Pairwise (fun a b => hitGE a b) :=
    List.sorted_mergeSort hitGE_trans hitGE_total scored
  have hvalid' : ∀ hc ∈ sorted.take top_k, hc.1.corpus_id < st.chunks.length := by
    intro hc hmem
    have h1 : hc ∈ sorted := (List.take_sublist _ _).subset hmem
    have h2 : hc ∈ scored := hperm.mem_iff.mp h1
    rw [hscored] at h2
    rcases List.mem_map.mp h2 with ⟨h, hh, rfl⟩
    exact hvalid h hh
  have hsearch : search embed semanticSearch rerank st query top_k =
      some ((sorted.take top_k).map F) := by
    unfold search
    rw [if_neg hne, hdv]
    dsimp only
    rw [hhits]
    have hmapM : (h0 :: hrest).mapM
        (fun h => (st.chunks.get? h.corpus_id).map (fun c => (query, c.text))) =
        some ((h0 :: hrest).map
          (fun h => (query, (chunkD st.chunks h.corpus_id).text))) := by
      apply mapM_option_eq_map
      intro a ha
      rw [get?_chunkD (hvalid a ha)]
      rfl
    rw [hmapM]
    dsimp only
    rw [if_neg (by simp)]
    rw [List.map_map]
    have hzip : (h0 :: hrest).zip ((h0 :: hrest).map gs) = scored := by
      rw [hscored]
      have := List.zip_map' (fun a : Hit => a) gs (h0 :: hrest)
      simpa using this
    have hcomp : ((fun pr : String × String => rerank pr.1 pr.2) ∘
        fun h => (query, (chunkD st.chunks h.corpus_id).text)) = gs := rfl
    rw [hcomp, hzip, ← hsorted]
    apply mapM_option_eq_map
    intro hc hmem
    rw [get?_chunkD (hvalid' hc hmem)]
    rfl
  have hslen : sorted.length = (h0 :: hrest).length := by
    rw [hsorted, List.length_mergeSort, hscored, List.length_map]
  obtain ⟨m0, rest', hsortedeq⟩ : ∃ m0 rest', sorted = m0 :: rest' := by
    cases hs : sorted with
    | nil => rw [hs] at hslen; simp at hslen
    | cons a l => exact ⟨a, l, rfl⟩
  refine ⟨(sorted.take top_k).map F, F m0, hsearch, ?_, ?_, ?_, ?_⟩
  · rw [List.length_map, List.length_take, hslen]
  · rw [List.pairwise_map]
    apply List.Pairwise.imp ?_ (List.Pairwise.sublist (List.take_sublist _ _) hpair)
    intro a b hab
    simpa [hF, hitGE] using hab
  · obtain ⟨k, rfl⟩ : ∃ k, top_k = k + 1 := ⟨top_k - 1, by omega⟩
    rw [hsortedeq]
    simp [List.take_cons]
  · obtain ⟨h1, hl, rfl⟩ : ∃ h1 hl, hrest = h1 :: hl := by
      cases hrest with
      | nil => exact absurd rfl hrne
      | cons a l => exact ⟨a, l, rfl⟩
    have hmem : (h1, gs h1) ∈ scored := by
      rw [hscored]
      exact List.mem_map_of_mem _ (by simp)
    have hmem' : (h1, gs h1) ∈ sorted := hperm.mem_iff.mpr hmem
    have hbase : rerank query c0.text < gs h1 :=
      hlow h1 (List.mem_cons_self _ _)
    have hF0 : (F m0).score = m0.2 := rfl
    rw [hF0]
    rw [hsortedeq] at hmem'
    rcases List.mem_cons.mp hmem' with heq | hmemrest
    · have : m0.2 = gs h1 := by rw [← heq]
      rw [this]
      exact hbase
    · have hge : hitGE m0 (h1, gs h1) := by
        rw [hsortedeq] at hpair
        exact (List.pairwise_cons.mp hpair).1 _ hmemrest
      have hle : gs h1 ≤ m0.2 := by
        simpa [hitGE] using hge
      exact lt_of_lt_of_le hbase hle

theorem search_orders_by_rerank_witness :
    ∃ res r0,
      search (fun _ => [1]) (fun _ _ _ => [Hit.mk 0 (9 / 10), Hit.mk 1 (1 / 2)])
          (fun _ t => if t = "B" then (5 : ℚ) else 1)
          (EngineState.mk
            [Chunk.mk "A" 0 "paragraph" none, Chunk.mk "B" 1 "paragraph" none]
            (some [[1], [0]])) "q" 1 = some res ∧
      res.length = min 1 [Hit.mk 0 (9 / 10), Hit.mk 1 (1 / 2)].length ∧
      List.Pairwise (fun a b : SearchResult => b.score ≤ a.score) res ∧
      res.head? = some r0 ∧
      (1 : ℚ) < r0.score :=
  search_orders_by_rerank
    (fun _ => [1]) (fun _ _ _ => [Hit.mk 0 (9 / 10), Hit.mk 1 (1 / 2)])
    (fun _ t => if t = "B" then (5 : ℚ) else 1)
    (EngineState.mk [Chunk.mk "A" 0 "paragraph" none, Chunk.mk "B" 1 "paragraph" none]
      (some [[1], [0]]))
    "q" 1 [[1], [0]] (Hit.mk 0 (9 / 10)) [Hit.mk 1 (1 / 2)]
    (Chunk.mk "A" 0 "paragraph" none)
    rfl (by decide) rfl (by decide) (by decide) rfl (by decide) (by decide)

/-! ## Artifact provisioning downloads exactly missing plus mismatched (C7) -/

/-- Manifest entries the loop classifies as missing: the file is absent,
or it exists but stat raises while the remote size is known. -/
def entryMissing (fs : LocalFS) (e : String × Option Nat) : Bool :=
  match fs e.1, e.2 with
  | none, _ => true
  | some none, some _ => true
  | _, _ => false

/-- Manifest entries the loop classifies as size mismatches. -/
def entryMismatch (fs : LocalFS) (e : String × Option Nat) : Bool :=
  match fs e.1, e.2 with
  | some (some lsz), some rsz => lsz ≠ rsz
  | _, _ => false

/-- Manifest entries present locally whose remote size is unknown. -/
def entryUnknown (fs : LocalFS) (e : String × Option Nat) : Bool :=
  match fs e.1, e.2 with
  | some _, none => true
  | _, _ => false

theorem collectLoop_eq (fs : LocalFS) : ∀ l : List (String × Option Nat),
    collectLoop fs l =
      ((l.filter (entryMissing fs)).map Prod.fst,
       (l.filter (entryMismatch fs)).map Prod.fst,
       (l.filter (entryUnknown fs)).map Prod.fst) := by
  intro l
  induction l with
  | nil => rfl
  | cons e rest ih =>
    obtain ⟨p, s⟩ := e
    simp only [collectLoop, ih]
    cases hf : fs p with
    | none =>
      simp [entryMissing, entryMismatch, entryUnknown, List.filter_cons, hf]
    | some st =>
      cases s with
      | none =>
        simp [entryMissing, entryMismatch, entryUnknown, List.filter_cons, hf]
      | some rsz =>
        cases st with
        | none =>
          simp [entryMissing, entryMismatch, entryUnknown, List.filter_cons, hf]
        | some lsz =>
          by_cases h : lsz = rsz
          · subst h
            simp [entryMissing, entryMismatch, entryUnknown, List.filter_cons, hf]
          · simp [entryMissing, entryMismatch, entryUnknown, List.filter_cons, hf, h]

theorem nodup_fst_eq {l : List (String × Option Nat)}
    (h : (l.map Prod.fst).Nodup) {p : String} {s s' : Option Nat}
    (h1 : (p, s) ∈ l) (h2 : (p, s') ∈ l) : s = s' := by
  induction l with
  | nil => cases h1
  | cons e rest ih =>
    obtain ⟨q, t⟩ := e
    rw [List.map_cons, List.nodup_cons] at h
    rcases List.mem_cons.mp h1 with he1 | h1'
    · injection he1 with hpq hst
      rcases List.mem_cons.mp h2 with he2 | h2'
      · injection he2 with _ hst'
        rw [hst, ← hst']
      · exfalso
        subst hpq
        exact h.1 (List.mem_map.mpr ⟨(p, s'), h2', rfl⟩)
    · rcases List.mem_cons.mp h2 with he2 | h2'
      · injection he2 with hpq hst'
        exfalso
        subst hpq
        exact h.1 (List.mem_map.mpr ⟨(p, s), h1', rfl⟩)
      · exact ih h.2 h1' h2'

theorem entryMissing_congr {fs fs' : LocalFS} {p : String} {s : Option Nat}
    (h : fs' p = fs p) : entryMissing fs' (p, s) = entryMissing fs (p, s) := by
  simp only [entryMissing]
  rw [h]

theorem entryMismatch_congr {fs fs' : LocalFS} {p : String} {s : Option Nat}
    (h : fs' p = fs p) : entryMismatch fs' (p, s) = entryMismatch fs (p, s) := by
  simp only [entryMismatch]
  rw [h]

theorem mem_to_download {fs : LocalFS} {files : List (String × Option Nat)} {p : String} :
    p ∈ (collect_missing_files fs files).1 ↔
      ∃ s, (p, s) ∈ files ∧
        (entryMissing fs (p, s) = true ∨ entryMismatch fs (p, s) = true) := by
  unfold collect_missing_files
  rw [collectLoop_eq]
  constructor
  · intro h
    rcases List.mem_append.mp h with h | h <;>
      · rcases List.mem_map.mp h with ⟨⟨q, s⟩, hmem, hq⟩
        rcases List.mem_filter.mp hmem with ⟨hin, hcls⟩
        subst hq
        exact ⟨s, hin, by simp [hcls]⟩
  · rintro ⟨s, hin, hcls | hcls⟩
    · exact List.mem_append.mpr (Or.inl
        (List.mem_map_of_mem Prod.fst (List.mem_filter.mpr ⟨hin, hcls⟩)))
    · exact List.mem_append.mpr (Or.inr
        (List.mem_map_of_mem Prod.fst (List.mem_filter.mpr ⟨hin, hcls⟩)))

/-- C7: the provisioning check downloads exactly the missing files plus the
size-mismatched files of the remote manifest, never a file that is present
with unknown remote size; an empty download list means no transfer at all,
and a second provisioning run right after a successful one (the downloads
having produced files of the remote sizes, no remote change) computes an
empty download list and transfers nothing. -/
theorem provisioning_exact_and_fixed_point
    (fs : LocalFS) (files : List (String × Option Nat)) (dlSize : String → Nat)
    (hnodup : (files.map Prod.fst).Nodup)
    (hdl : ∀ e ∈ files, e.1 ∈ (collect_missing_files fs files).1 →
        (e.2 = none ∨ e.2 = some (dlSize e.1))) :
    ((collect_missing_files fs files).1 =
        (collect_missing_files fs files).2.1 ++ (collect_missing_files fs files).2.2) ∧
    (∀ p, p ∈ (collect_missing_files fs files).1 ↔
        ∃ s, (p, s) ∈ files ∧
          (entryMissing fs (p, s) = true ∨ entryMismatch fs (p, s) = true)) ∧
    (∀ p, (p, none) ∈ files → localExists fs p = true →
        p ∉ (collect_missing_files fs files).1) ∧
    ((collect_missing_files fs files).1 = [] →
        ensurePlan fs (some files) = DownloadPlan.noTransfer) ∧
    (collect_missing_files
        (applyDownload fs (collect_missing_files fs files).1 dlSize) files).1 = [] ∧
    ensurePlan (applyDownload fs (collect_missing_files fs files).1 dlSize)
        (some files) = DownloadPlan.noTransfer := by
  set td := (collect_missing_files fs files).1 with htd
  set fs' := applyDownload fs td dlSize with hfs'
  have hclean : ∀ e ∈ files, entryMissing fs' e = false ∧ entryMismatch fs' e = false := by
    intro e hin
    obtain ⟨p, s⟩ := e
    by_cases hp : p ∈ td
    · have hfp : fs' p = some (some (dlSize p)) := by
        rw [hfs']
        unfold applyDownload
        rw [if_pos hp]
      cases s with
      | none => simp [entryMissing, entryMismatch, hfp]
      | some rsz =>
        have := hdl (p, some rsz) hin hp
        rcases this with h | h
        · simp at h
        · have hrsz : rsz = dlSize p := by simpa using h
          subst hrsz
          simp [entryMissing, entryMismatch, hfp]
    · have hfp : fs' p = fs p := by
        rw [hfs']
        unfold applyDownload
        rw [if_neg hp]
      constructor
      · rw [entryMissing_congr hfp]
        by_contra hmis
        rw [Bool.not_eq_false] at hmis
        exact hp (mem_to_download.mpr ⟨s, hin, Or.inl hmis⟩)
      · rw [entryMismatch_congr hfp]
        by_contra hmis
        rw [Bool.not_eq_false] at hmis
        exact hp (mem_to_download.mpr ⟨s, hin, Or.inr hmis⟩)
  have hfix : (collect_missing_files fs' files).1 = [] := by
    unfold collect_missing_files
    rw [collectLoop_eq]
    have h1 : files.filter (entryMissing fs') = [] :=
      List.filter_eq_nil_iff.mpr (fun e he => by simp [(hclean e he).1])
    have h2 : files.filter (entryMismatch fs') = [] :=
      List.filter_eq_nil_iff.mpr (fun e he => by simp [(hclean e he).2])
    simp [h1, h2]
  refine ⟨rfl, fun p => mem_to_download, ?_, ?_, hfix, ?_⟩
  · intro p hin hex
    intro hmem
    rcases mem_to_download.mp hmem with ⟨s, hin', hcls⟩
    have hs : none = s := nodup_fst_eq hnodup hin hin'
    subst hs
    have hfsp : ∃ v, fs p = some v := by
      unfold localExists at hex
      cases hv : fs p with
      | none => rw [hv] at hex; simp at hex
      | some v => exact ⟨v, rfl⟩
    rcases hfsp with ⟨v, hv⟩
    rcases hcls with h | h <;> cases v <;> simp [entryMissing, entryMismatch, hv] at h
  · intro hempty
    unfold ensurePlan
    dsimp only
    rw [← htd, hempty, if_pos rfl]
  · unfold ensurePlan
    dsimp only
    rw [hfix, if_pos rfl]

/-- A small local directory used to exercise the provisioning theorem:
"a" is missing, "b" is present with unknown remote size, "c" is present
with the wrong size. -/
def fsW : LocalFS := fun p =>
  if p = "b" then some (some 7) else if p = "c" then some (some 9) else none

/-- The matching remote manifest for the provisioning witness. -/
def filesW : List (String × Option Nat) := [("a", some 3), ("b", none), ("c", some 5)]

/-- Sizes the downloads produce in the provisioning witness. -/
def dlSizeW : String → Nat := fun p => if p = "a" then 3 else 5

theorem provisioning_fixed_point_witness :
    ((collect_missing_files fsW filesW).1 =
        (collect_missing_files fsW filesW).2.1 ++ (collect_missing_files fsW filesW).2.2) ∧
    (∀ p, p ∈ (collect_missing_files fsW filesW).1 ↔
        ∃ s, (p, s) ∈ filesW ∧
          (entryMissing fsW (p, s) = true ∨ entryMismatch fsW (p, s) = true)) ∧
    (∀ p, (p, none) ∈ filesW → localExists fsW p = true →
        p ∉ (collect_missing_files fsW filesW).1) ∧
    ((collect_missing_files fsW filesW).1 = [] →
        ensurePlan fsW (some filesW) = DownloadPlan.noTransfer) ∧
    (collect_missing_files
        (applyDownload fsW (collect_missing_files fsW filesW).1 dlSizeW) filesW).1 = [] ∧
    ensurePlan (applyDownload fsW (collect_missing_files fsW filesW).1 dlSizeW)
        (some filesW) = DownloadPlan.noTransfer :=
  provisioning_exact_and_fixed_point fsW filesW dlSizeW (by decide) (by decide)

/-! ## The sliding window splitter (C5) -/

theorem windowLoop_mem {sentences : List String} {ws spred index : Nat} {stype : String} :
    ∀ (n i : Nat), sentences.length - i ≤ n →
      ∀ c ∈ windowLoop sentences ws spred index stype i,
        ∃ j, i ≤ j ∧ j < sentences.length ∧ (j - i) % (spred + 1) = 0 ∧
          joinSep " " ((sentences.drop j).take ws) ≠ "" ∧
          c = Chunk.mk (joinSep " " ((sentences.drop j).take ws)) index stype none := by
  intro n
  induction n with
  | zero =>
    intro i hle c hc
    rw [windowLoop] at hc
    rw [dif_neg (by omega)] at hc
    cases hc
  | succ n ih =>
    intro i hle c hc
    rw [windowLoop] at hc
    by_cases hi : i < sentences.length
    · rw [dif_pos hi] at hc
      dsimp only at hc
      have hhere : c ∈ (if joinSep " " ((sentences.drop i).take ws) = "" then []
          else [Chunk.mk (joinSep " " ((sentences.drop i).take ws)) index stype none]) →
          ∃ j, i ≤ j ∧ j < sentences.length ∧ (j - i) % (spred + 1) = 0 ∧
            joinSep " " ((sentences.drop j).take ws) ≠ "" ∧
            c = Chunk.mk (joinSep " " ((sentences.drop j).take ws)) index stype none := by
        intro hmem
        by_cases hct : joinSep " " ((sentences.drop i).take ws) = ""
        · rw [if_pos hct] at hmem
          cases hmem
        · rw [if_neg hct] at hmem
          rcases List.mem_cons.mp hmem with rfl | habs
          · exact ⟨i, le_refl i, hi, by simp, hct, rfl⟩
          · cases habs
      by_cases hbr : sentences.length ≤ i + ws
      · rw [if_pos hbr] at hc
        exact hhere hc
      · rw [if_neg hbr] at hc
        rcases List.mem_append.mp hc with hmem | hrec
        · exact hhere hmem
        · rcases ih (i + (spred + 1)) (by omega) c hrec with ⟨j, hij, hjlen, hmod, hct, hceq⟩
          refine ⟨j, by omega, hjlen, ?_, hct, hceq⟩
          have hshift : j - i = (j - (i + (spred + 1))) + (spred + 1) := by omega
          rw [hshift, Nat.add_mod_right]
          exact hmod
    · rw [dif_neg hi] at hc
      cases hc

/-- Every chunk the window splitter emits carries the caller's index and
source type (shared helper for the window-splitter and process results). -/
theorem sliding_window_fields {p : DocProcessor} {text : String} {idx : Nat} {stype : String} :
    ∀ c ∈ p.sliding_window text idx stype,
      c.original_index = idx ∧ c.source_type = stype := by
  intro c hc
  unfold DocProcessor.sliding_window at hc
  dsimp only at hc
  by_cases hemp : (sentencesOf text).isEmpty
  · rw [if_pos hemp] at hc
    cases hc
  · rw [if_neg hemp] at hc
    by_cases hlen : (sentencesOf text).length ≤ p.window_size
    · rw [if_pos hlen] at hc
      rcases List.mem_cons.mp hc with rfl | habs
      · exact ⟨rfl, rfl⟩
      · cases habs
    · rw [if_neg hlen] at hc
      rcases windowLoop_mem (sentencesOf text).length 0 (by omega) c hc with
        ⟨j, _, _, _, _, hceq⟩
      rw [hceq]
      exact ⟨rfl, rfl⟩

/-- C5 counterexample: the empty string is a cleaned text (clean_text of
the empty string is itself) whose sentence count 0 is at most window_size,
yet the splitter returns the empty list instead of the whole text as a
single chunk. -/
theorem sliding_window_empty_text :
    clean_text "" = "" ∧
    (sentencesOf "").length ≤ (DocProcessor.init 400 2 1).window_size ∧
    (DocProcessor.init 400 2 1).sliding_window "" 0 "paragraph" = [] ∧
    (DocProcessor.init 400 2 1).sliding_window "" 0 "paragraph" ≠
      [Chunk.mk "" 0 "paragraph" none] := by
  refine ⟨rfl, by decide, rfl, by decide⟩

unseal windowLoop in
/-- C5 (amended): every chunk the splitter emits carries the parent's
original_index and source_type; a text with at least one sentence and at
most window_size of them comes back whole as a single chunk (a text with
no sentences after dropping empty fragments yields the empty list
instead); with more sentences than window_size every emitted chunk is a
window of window_size sentences joined by single spaces starting at a
multiple of stride max(1, window_size - overlap); and on four sentences
with window_size 2, overlap 1 the splitter emits exactly the three
windows S1S2, S2S3, S3S4. -/
theorem sliding_window_spec (p : DocProcessor) (text : String) (idx : Nat) (stype : String) :
    (∀ c ∈ p.sliding_window text idx stype,
        c.original_index = idx ∧ c.source_type = stype) ∧
    (sentencesOf text ≠ [] → (sentencesOf text).length ≤ p.window_size →
        p.sliding_window text idx stype = [Chunk.mk text idx stype none]) ∧
    (p.window_size < (sentencesOf text).length →
        ∀ c ∈ p.sliding_window text idx stype, ∃ j,
          j < (sentencesOf text).length ∧
          j % (max 1 (p.window_size - p.overlap)) = 0 ∧
          c = Chunk.mk (joinSep " " (((sentencesOf text).drop j).take p.window_size))
            idx stype none) ∧
    (DocProcessor.init 400 2 1).sliding_window "A. B. C. D." 7 "paragraph" =
      [Chunk.mk "A. B." 7 "paragraph" none, Chunk.mk "B. C." 7 "paragraph" none,
       Chunk.mk "C. D." 7 "paragraph" none] := by
  have hstride : (max 1 (p.window_size - p.overlap) - 1) + 1 =
      max 1 (p.window_size - p.overlap) := by omega
  refine ⟨sliding_window_fields, ?_, ?_, by decide⟩
  · intro hne hlen
    unfold DocProcessor.sliding_window
    dsimp only
    rw [if_neg (by simpa [List.isEmpty_iff] using hne), if_pos hlen]
  · intro hlen c hc
    unfold DocProcessor.sliding_window at hc
    dsimp only at hc
    have hne : ¬ (sentencesOf text).isEmpty = true := by
      rw [List.isEmpty_iff]
      intro h
      rw [h] at hlen
      simp at hlen
    rw [if_neg hne, if_neg (by omega)] at hc
    rcases windowLoop_mem (sentencesOf text).length 0 (by omega) c hc with
      ⟨j, _, hjlen, hmod, _, hceq⟩
    refine ⟨j, hjlen, ?_, hceq⟩
    rw [← hstride]
    simpa using hmod

theorem sliding_window_spec_witness :
    (∀ c ∈ (DocProcessor.init 400 2 1).sliding_window "A. B. C. D." 7 "paragraph",
        c.original_index = 7 ∧ c.source_type = "paragraph") ∧
    (sentencesOf "A. B. C. D." ≠ [] →
      (sentencesOf "A. B. C. D.").length ≤ (DocProcessor.init 400 2 1).window_size →
        (DocProcessor.init 400 2 1).sliding_window "A. B. C. D." 7 "paragraph" =
          [Chunk.mk "A. B. C. D." 7 "paragraph" none]) ∧
    ((DocProcessor.init 400 2 1).window_size < (sentencesOf "A. B. C. D.").length →
        ∀ c ∈ (DocProcessor.init 400 2 1).sliding_window "A. B. C. D." 7 "paragraph", ∃ j,
          j < (sentencesOf "A. B. C. D.").length ∧
          j % (max 1 ((DocProcessor.init 400 2 1).window_size -
            (DocProcessor.init 400 2 1).overlap)) = 0 ∧
          c = Chunk.mk (joinSep " " (((sentencesOf "A. B. C. D.").drop j).take
            (DocProcessor.init 400 2 1).window_size)) 7 "paragraph" none) ∧
    (DocProcessor.init 400 2 1).sliding_window "A. B. C. D." 7 "paragraph" =
      [Chunk.mk "A. B." 7 "paragraph" none, Chunk.mk "B. C." 7 "paragraph" none,
       Chunk.mk "C. D." 7 "paragraph" none] :=
  sliding_window_spec (DocProcessor.init 400 2 1) "A. B. C. D." 7 "paragraph"

/-! ## Document order of process output (C6) -/

theorem enumFrom_flatMap_mem {α β : Type} {f : Nat × α → List β} :
    ∀ {l : List α} {n : Nat} {b : β}, b ∈ (l.enumFrom n).flatMap f →
      ∃ i a, l.get? i = some a ∧ b ∈ f (n + i, a) := by
  intro l
  induction l with
  | nil => intro n b h; cases h
  | cons a as ih =>
    intro n b h
    rw [List.enumFrom_cons, List.flatMap_cons] at h
    rcases List.mem_append.mp h with h1 | h2
    · exact ⟨0, a, rfl, by simpa using h1⟩
    · rcases ih h2 with ⟨i, x, hget, hmem⟩
      have heq : n + 1 + i = n + (i + 1) := by omega
      exact ⟨i + 1, x, hget, heq ▸ hmem⟩

theorem enumFrom_flatMap_key_ge {α β : Type} {f : Nat × α → List β} {key : β → Nat}
    (hf : ∀ p b, b ∈ f p → key b = p.1) :
    ∀ {l : List α} {n : Nat} {b : β}, b ∈ (l.enumFrom n).flatMap f → n ≤ key b := by
  intro l n b h
  rcases enumFrom_flatMap_mem h with ⟨i, a, _, hmem⟩
  rw [hf (n + i, a) b hmem]
  omega

theorem pairwise_enumFrom_flatMap {α β : Type} {f : Nat × α → List β} (key : β → Nat)
    {R : β → β → Prop}
    (hf : ∀ p b, b ∈ f p → key b = p.1)
    (hinner : ∀ p, (f p).Pairwise R)
    (hcross : ∀ b b', key b < key b' → R b b') :
    ∀ (l : List α) (n : Nat), ((l.enumFrom n).flatMap f).Pairwise R := by
  intro l
  induction l with
  | nil => intro n; simp
  | cons a as ih =>
    intro n
    rw [List.enumFrom_cons, List.flatMap_cons, List.pairwise_append]
    refine ⟨hinner (n, a), ih (n + 1), ?_⟩
    intro b hb b' hb'
    apply hcross
    have h1 : key b = n := hf (n, a) b hb
    have h2 : n + 1 ≤ key b' := enumFrom_flatMap_key_ge hf hb'
    omega

/-- The row index a table chunk carries in its metadata. -/
def rowIdxOf (c : Chunk) : Nat :=
  match c.metadata with
  | some (("row_index", j) :: _) => j
  | _ => 0

/-- The document-order relation for table chunks: earlier table, or same
table and earlier row. -/
def tableLE (a b : Chunk) : Prop :=
  a.original_index < b.original_index ∨
    (a.original_index = b.original_index ∧ rowIdxOf a < rowIdxOf b)

theorem rowChunks_mem {i j : Nat} {row : List String} {c : Chunk}
    (h : c ∈ rowChunks i j row) :
    c = Chunk.mk (joinSep " | " (row.map clean_text)) i "table"
      (some [("row_index", j)]) ∧
    pyStrip (pyRemoveChar '|' (clean_text (joinSep " | " (row.map clean_text)))) ≠ "" := by
  unfold rowChunks at h
  dsimp only at h
  by_cases hx : pyStrip (pyRemoveChar '|' (clean_text (joinSep " | " (row.map clean_text)))) = ""
  · rw [if_pos hx] at h
    cases h
  · rw [if_neg hx] at h
    rcases List.mem_cons.mp h with rfl | habs
    · exact ⟨rfl, hx⟩
    · cases habs

theorem paragraphChunks_fields {p : DocProcessor} :
    ∀ pr (c : Chunk), c ∈ (if clean_text (Prod.snd pr) = "" then []
        else if p.max_chars < (clean_text (Prod.snd pr)).length then
          p.sliding_window (clean_text (Prod.snd pr)) (Prod.fst pr) "paragraph"
        else [Chunk.mk (clean_text (Prod.snd pr)) (Prod.fst pr) "paragraph" none]) →
      c.original_index = pr.1 ∧ c.source_type = "paragraph" := by
  intro pr c hc
  by_cases h1 : clean_text pr.2 = ""
  · rw [if_pos h1] at hc
    cases hc
  · rw [if_neg h1] at hc
    by_cases h2 : p.max_chars < (clean_text pr.2).length
    · rw [if_pos h2] at hc
      exact sliding_window_fields c hc
    · rw [if_neg h2] at hc
      rcases List.mem_cons.mp hc with rfl | habs
      · exact ⟨rfl, rfl⟩
      · cases habs

/-- C6: process returns the paragraph-derived chunks first, in paragraph
order, followed by the table-derived chunks in table order and row order
within each table; every table chunk carries its table's index as
original_index and its row's index as the row_index metadata entry, so
rows of one table share original_index. -/
theorem process_document_order (p : DocProcessor) (doc : PyDocument) :
    p.processDoc doc = p.paragraphChunks doc.paragraphs ++ p.tableChunks doc.tables ∧
    (∀ c ∈ p.paragraphChunks doc.paragraphs, c.source_type = "paragraph") ∧
    (∀ c ∈ p.tableChunks doc.tables, c.source_type = "table") ∧
    List.Pairwise (fun a b : Chunk => a.original_index ≤ b.original_index)
      (p.paragraphChunks doc.paragraphs) ∧
    List.Pairwise tableLE (p.tableChunks doc.tables) ∧
    (∀ c ∈ p.tableChunks doc.tables, ∃ i j t row,
        doc.tables.get? i = some t ∧ t.get? j = some row ∧
        c.original_index = i ∧ c.metadata = some [("row_index", j)] ∧
        c.text = joinSep " | " (row.map clean_text)) := by
  have henum : ∀ {γ : Type} (l : List γ), l.enum = l.enumFrom 0 := fun l => rfl
  have htablemem : ∀ c ∈ p.tableChunks doc.tables, ∃ i j t row,
      doc.tables.get? i = some t ∧ t.get? j = some row ∧
      c = Chunk.mk (joinSep " | " (row.map clean_text)) i "table"
        (some [("row_index", j)]) := by
    intro c hc
    unfold DocProcessor.tableChunks at hc
    rw [henum] at hc
    rcases enumFrom_flatMap_mem hc with ⟨i, t, hget, hmem⟩
    rw [henum] at hmem
    rcases enumFrom_flatMap_mem hmem with ⟨j, row, hget2, hmem2⟩
    refine ⟨i, j, t, row, by simpa using hget, by simpa using hget2, ?_⟩
    exact (rowChunks_mem (by simpa using hmem2)).1
  refine ⟨rfl, ?_, ?_, ?_, ?_, ?_⟩
  · intro c hc
    unfold DocProcessor.paragraphChunks at hc
    rw [henum] at hc
    rcases enumFrom_flatMap_mem hc with ⟨i, para, _, hmem⟩
    exact (paragraphChunks_fields (0 + i, para) c (by simpa using hmem)).2
  · intro c hc
    rcases htablemem c hc with ⟨i, j, t, row, _, _, hceq⟩
    rw [hceq]
  · unfold DocProcessor.paragraphChunks
    rw [henum]
    apply pairwise_enumFrom_flatMap (fun c : Chunk => c.original_index)
    · intro pr b hb
      exact (paragraphChunks_fields pr b hb).1
    · intro pr
      apply List.pairwise_of_forall_mem_list
      intro a ha b hb
      rw [(paragraphChunks_fields pr a ha).1, (paragraphChunks_fields pr b hb).1]
    · intro b b' hlt
      omega
  · unfold DocProcessor.tableChunks
    rw [henum]
    apply pairwise_enumFrom_flatMap (fun c : Chunk => c.original_index)
    · intro tp b hb
      rw [henum] at hb
      rcases enumFrom_flatMap_mem hb with ⟨j, row, _, hmem⟩
      rw [(rowChunks_mem hmem).1]
    · intro tp
      rw [henum]
      have hrows : List.Pairwise (fun a b : Chunk => rowIdxOf a < rowIdxOf b)
          ((tp.2.enumFrom 0).flatMap fun rp => rowChunks tp.1 rp.1 rp.2) := by
        apply pairwise_enumFrom_flatMap rowIdxOf
        · intro rp b hb
          rw [(rowChunks_mem hb).1]
          rfl
        · intro rp
          unfold rowChunks
          dsimp only
          by_cases hx : pyStrip (pyRemoveChar '|'
              (clean_text (joinSep " | " (rp.2.map clean_text)))) = ""
          · rw [if_pos hx]
            exact List.Pairwise.nil
          · rw [if_neg hx]
            simp
        · intro b b' h
          exact h
      have hsame : ∀ b ∈ (tp.2.enumFrom 0).flatMap fun rp => rowChunks tp.1 rp.1 rp.2,
          b.original_index = tp.1 := by
        intro b hb
        rcases enumFrom_flatMap_mem hb with ⟨j, row, _, hmem⟩
        rw [(rowChunks_mem hmem).1]
      exact hrows.imp_of_mem fun hb hb' hlt =>
        Or.inr ⟨by rw [hsame _ hb, hsame _ hb'], hlt⟩
    · intro b b' hlt
      exact Or.inl hlt
  · intro c hc
    rcases htablemem c hc with ⟨i, j, t, row, hget, hget2, hceq⟩
    exact ⟨i, j, t, row, hget, hget2, by rw [hceq], by rw [hceq], by rw [hceq]⟩

theorem process_document_order_witness :
    ((DocProcessor.init 400 4 1).processDoc
        (PyDocument.mk ["Hello world.", "Second paragraph."]
          [[["a", "b"], ["c", "d"]]]) =
      (DocProcessor.init 400 4 1).paragraphChunks ["Hello world.", "Second paragraph."] ++
      (DocProcessor.init 400 4 1).tableChunks [[["a", "b"], ["c", "d"]]]) ∧
    (∀ c ∈ (DocProcessor.init 400 4 1).paragraphChunks
        ["Hello world.", "Second paragraph."], c.source_type = "paragraph") ∧
    (∀ c ∈ (DocProcessor.init 400 4 1).tableChunks [[["a", "b"], ["c", "d"]]],
        c.source_type = "table") ∧
    List.Pairwise (fun a b : Chunk => a.original_index ≤ b.original_index)
      ((DocProcessor.init 400 4 1).paragraphChunks ["Hello world.", "Second paragraph."]) ∧
    List.Pairwise tableLE
      ((DocProcessor.init 400 4 1).tableChunks [[["a", "b"], ["c", "d"]]]) ∧
    (∀ c ∈ (DocProcessor.init 400 4 1).tableChunks [[["a", "b"], ["c", "d"]]],
        ∃ i j t row,
          [[["a", "b"], ["c", "d"]]].get? i = some t ∧ t.get? j = some row ∧
          c.original_index = i ∧ c.metadata = some [("row_index", j)] ∧
          c.text = joinSep " | " (row.map clean_text)) :=
  process_document_order (DocProcessor.init 400 4 1)
    (PyDocument.mk ["Hello world.", "Second paragraph."] [[["a", "b"], ["c", "d"]]])

/-! ## Chunks always carry visible text (C10) -/

theorem strip_nonempty_nonws {l : List Char} (h : pyStripChars l ≠ []) :
    ∃ ch ∈ pyStripChars l, pyIsSpace ch = false := by
  cases hTc : (l.dropWhile pyIsSpace).reverse.dropWhile pyIsSpace with
  | nil =>
    exact absurd (by unfold pyStripChars; rw [hTc]; rfl) h
  | cons c cs =>
    have hws : pyIsSpace c = false := dropWhile_head?_not (by rw [hTc]; rfl)
    refine ⟨c, ?_, hws⟩
    unfold pyStripChars
    rw [hTc]
    simp

theorem pyStrip_ne_nonws {s : String} (h : pyStrip s ≠ "") :
    ∃ ch ∈ s.data, pyIsSpace ch = false := by
  have hne : pyStripChars s.data ≠ [] := by
    intro hz
    apply h
    unfold pyStrip
    rw [hz]
  rcases strip_nonempty_nonws hne with ⟨ch, hmem, hws⟩
  exact ⟨ch, pyStrip_sub hmem, hws⟩

theorem clean_ne_nonws {s : String} (h : clean_text s ≠ "") :
    ∃ ch ∈ (clean_text s).data, pyIsSpace ch = false := by
  have hne : pyStripChars (collapseWSAux false s.data) ≠ [] := by
    intro hz
    apply h
    unfold clean_text
    rw [hz]
  rcases strip_nonempty_nonws hne with ⟨ch, hmem, hws⟩
  exact ⟨ch, hmem, hws⟩

theorem mem_joinSep_head {sep s : String} {rest : List String} {ch : Char}
    (h : ch ∈ s.data) : ch ∈ (joinSep sep (s :: rest)).data := by
  cases rest with
  | nil => simpa [joinSep] using h
  | cons t ts =>
    show ch ∈ (s ++ sep ++ joinSep sep (t :: ts)).data
    simp only [String.data_append, List.mem_append]
    exact Or.inl (Or.inl h)

theorem sliding_window_nonws {p : DocProcessor} {text : String} {idx : Nat} {stype : String}
    (htext : ∃ ch ∈ text.data, pyIsSpace ch = false) :
    ∀ c ∈ p.sliding_window text idx stype, ∃ ch ∈ c.text.data, pyIsSpace ch = false := by
  intro c hc
  unfold DocProcessor.sliding_window at hc
  dsimp only at hc
  by_cases hemp : (sentencesOf text).isEmpty
  · rw [if_pos hemp] at hc
    cases hc
  · rw [if_neg hemp] at hc
    by_cases hlen : (sentencesOf text).length ≤ p.window_size
    · rw [if_pos hlen] at hc
      rcases List.mem_cons.mp hc with rfl | habs
      · exact htext
      · cases habs
    · rw [if_neg hlen] at hc
      rcases windowLoop_mem (sentencesOf text).length 0 (by omega) c hc with
        ⟨j, _, hjlen, _, hct, hceq⟩
      cases hw : ((sentencesOf text).drop j).take p.window_size with
      | nil =>
        rw [hw] at hct
        exact absurd rfl hct
      | cons w ws' =>
        have h1 : w ∈ ((sentencesOf text).drop j).take p.window_size := by
          rw [hw]
          exact List.mem_cons_self _ _
        have h2 : w ∈ (sentencesOf text).drop j := List.take_subset _ _ h1
        have h3 : w ∈ sentencesOf text := List.drop_subset _ _ h2
        have h4 : pyStrip w ≠ "" := by
          have := (List.mem_filter.mp h3).2
          simpa using this
        rcases pyStrip_ne_nonws h4 with ⟨ch, hm, hws⟩
        rw [hceq, hw]
        exact ⟨ch, mem_joinSep_head hm, hws⟩

theorem collapse_mem_nonws {ch : Char} {l : List Char} (h : ch ∈ collapseWSAux false l)
    (hws : pyIsSpace ch = false) : ch ∈ l := by
  rcases collapse_mem h with rfl | ⟨hm, _⟩
  · simp [pyIsSpace] at hws
  · exact hm

theorem clean_mem_nonws {ch : Char} {s : String} (h : ch ∈ (clean_text s).data)
    (hws : pyIsSpace ch = false) : ch ∈ s.data := by
  have h1 : ch ∈ pyStripChars (collapseWSAux false s.data) := h
  exact collapse_mem_nonws (pyStrip_sub h1) hws

theorem row_text_nonws_nonpipe {row_text : String}
    (h : pyStrip (pyRemoveChar '|' (clean_text row_text)) ≠ "") :
    ∃ ch ∈ row_text.data, pyIsSpace ch = false ∧ ch ≠ '|' := by
  rcases pyStrip_ne_nonws h with ⟨ch, hmem, hws⟩
  have hm2 : ch ∈ ((clean_text row_text).data.filter (fun c => c ≠ '|')) := hmem
  have hm3 := List.mem_filter.mp hm2
  have hpipe : ch ≠ '|' := by simpa using hm3.2
  exact ⟨ch, clean_mem_nonws hm3.1 hws, hws, hpipe⟩

/-- C10: every chunk process emits has text containing at least one
non-whitespace character (so it is non-empty), and every table chunk's
text moreover contains a character that is neither whitespace nor the
pipe separator: rows and paragraphs that are empty after cleaning are
skipped and the window splitter drops empty sentence fragments. -/
theorem process_chunks_nonempty (p : DocProcessor) (doc : PyDocument) :
    ∀ c ∈ p.processDoc doc,
      (∃ ch ∈ c.text.data, pyIsSpace ch = false) ∧
      (c.source_type = "table" → ∃ ch ∈ c.text.data, pyIsSpace ch = false ∧ ch ≠ '|') := by
  intro c hc
  have henum : ∀ {γ : Type} (l : List γ), l.enum = l.enumFrom 0 := fun l => rfl
  unfold DocProcessor.processDoc at hc
  rcases List.mem_append.mp hc with hpara | htab
  · unfold DocProcessor.paragraphChunks at hpara
    rw [henum] at hpara
    rcases enumFrom_flatMap_mem hpara with ⟨i, para, _, hmem⟩
    have hst : c.source_type = "paragraph" :=
      (paragraphChunks_fields (0 + i, para) c (by simpa using hmem)).2
    dsimp only at hmem
    have hnw : ∃ ch ∈ c.text.data, pyIsSpace ch = false := by
      by_cases h1 : clean_text para = ""
      · rw [if_pos h1] at hmem
        cases hmem
      · rw [if_neg h1] at hmem
        by_cases h2 : p.max_chars < (clean_text para).length
        · rw [if_pos h2] at hmem
          exact sliding_window_nonws (clean_ne_nonws h1) c hmem
        · rw [if_neg h2] at hmem
          rcases List.mem_cons.mp hmem with rfl | habs
          · exact clean_ne_nonws h1
          · cases habs
    refine ⟨hnw, ?_⟩
    intro htable
    rw [hst] at htable
    exact absurd htable (by decide)
  · unfold DocProcessor.tableChunks at htab
    rw [henum] at htab
    rcases enumFrom_flatMap_mem htab with ⟨i, t, _, hmem⟩
    rw [henum] at hmem
    rcases enumFrom_flatMap_mem hmem with ⟨j, row, _, hmem2⟩
    rcases rowChunks_mem hmem2 with ⟨hceq, hne⟩
    rcases row_text_nonws_nonpipe hne with ⟨ch, hm, hws, hpipe⟩
    rw [hceq]
    exact ⟨⟨ch, hm, hws⟩, fun _ => ⟨ch, hm, hws, hpipe⟩⟩

theorem process_chunks_nonempty_witness :
    (∃ ch ∈ (Chunk.mk "Hello world." 0 "paragraph" none).text.data,
        pyIsSpace ch = false) ∧
    (∃ ch ∈ (Chunk.mk "a | b" 0 "table" (some [("row_index", 0)])).text.data,
        pyIsSpace ch = false ∧ ch ≠ '|') := by
  have h := process_chunks_nonempty (DocProcessor.init 400 4 1)
    (PyDocument.mk ["Hello world."] [[["a", "b"]]])
  exact ⟨(h (Chunk.mk "Hello world." 0 "paragraph" none) (by decide)).1,
    (h (Chunk.mk "a | b" 0 "table" (some [("row_index", 0)])) (by decide)).2 rfl⟩

end ContractProcess
